import Mathlib

/-!
Shallow embedding of the inventory-management repository's core
(`src/Headers/Parser.hpp`: CSV tokenizer, sanitizers, catalog loader, and the
separate-chaining `HashTable`), together with theorems checking the
natural-language specification against it.

Strings are modelled as Lean `String` and scans over `std::string` as
structural recursion over `String.data` (the list of characters).  The C++
`size_t` sentinel `-1` used by `HeaderMap::get` is modelled as `Option Nat`
(`none` = column absent).  The C++ `double` load-factor comparison
`size/bucketCount > 0.9` is rendered exactly over the integers as
`10 * size > 9 * bucketCount` (guarded by the `buckets_.empty()` check of
`loadFactor()`); `loadFactor` itself is also given as an exact rational for
use in specification statements.  `std::hash<std::string>` is an arbitrary
function `String → Nat`; every theorem quantifies over it.
-/

namespace inv

/-- isSpaceChar models `std::isspace` (C locale) on the six whitespace
characters: space, tab, newline, vertical tab, form feed, carriage return. -/
def isSpaceChar (c : Char) : Bool :=
  c = ' ' || c = '\t' || c = '\n' || c = '\x0b' || c = '\x0c' || c = '\r'

/-- ltrimL models `detail::ltrim` on character lists: skip leading whitespace. -/
def ltrimL (s : List Char) : List Char := s.dropWhile isSpaceChar

/-- rtrimL models `detail::rtrim`: drop trailing whitespace characters. -/
def rtrimL (s : List Char) : List Char := (s.reverse.dropWhile isSpaceChar).reverse

/-- trimL models `detail::trim = rtrim ∘ ltrim`. -/
def trimL (s : List Char) : List Char := rtrimL (ltrimL s)

/-- ltrim is `detail::ltrim` on strings. -/
def ltrim (s : String) : String := ⟨ltrimL s.data⟩

/-- rtrim is `detail::rtrim` on strings. -/
def rtrim (s : String) : String := ⟨rtrimL s.data⟩

/-- trim is `detail::trim` on strings. -/
def trim (s : String) : String := ⟨trimL s.data⟩

/-- sanitizeScan models the loop of `detail::sanitize`: CR/LF/TAB become
spaces, runs of whitespace collapse to a single space (`prev` tracks the
previously emitted character, initially `'\0'`). -/
def sanitizeScan (prev : Char) : List Char → List Char
  | [] => []
  | c :: cs =>
    let c1 := if c = '\n' || c = '\r' || c = '\t' then ' ' else c
    if isSpaceChar c1 then
      if prev = ' ' then sanitizeScan prev cs
      else ' ' :: sanitizeScan ' ' cs
    else c1 :: sanitizeScan c1 cs

/-- sanitize models `detail::sanitize`: normalize whitespace, then trim. -/
def sanitize (s : String) : String := ⟨trimL (sanitizeScan '\x00' s.data)⟩

/-- splitPipeAux models the splitting loop of `detail::extractCategories`:
accumulate the current part in `cur`, emitting a part at each `'|'` and a
final part at the end of the string. -/
def splitPipeAux (cur : List Char) : List Char → List (List Char)
  | [] => [cur]
  | c :: cs => if c = '|' then cur :: splitPipeAux [] cs else splitPipeAux (cur ++ [c]) cs

/-- cleanParts models the dedup loop of `detail::extractCategories`: skip empty
parts, skip parts already emitted (the C++ `uniq` set always holds exactly the
elements of `cleaned`, so set-membership is membership in the accumulator). -/
def cleanParts (acc : List String) : List String → List String
  | [] => acc
  | p :: ps =>
    if p = "" then cleanParts acc ps
    else if p ∈ acc then cleanParts acc ps
    else cleanParts (acc ++ [p]) ps

/-- extractCategories models `detail::extractCategories`: split on `'|'`, trim
each part, drop empties, dedup keeping first occurrence, with `["NA"]` fallback. -/
def extractCategories (raw : String) : List String :=
  let parts := (splitPipeAux [] raw.data).map (fun p => (⟨trimL p⟩ : String))
  let cleaned := cleanParts [] parts
  if cleaned = [] then ["NA"] else cleaned

/-- joinCategories models `detail::joinCategories`: fold with a first-element
flag, separating parts with `" | "`. -/
def joinCategories (cats : List String) : String :=
  match cats with
  | [] => ""
  | c :: cs => cs.foldl (fun acc p => acc ++ " | " ++ p) c

/-- cleanPrice models `detail::cleanPrice`: sanitize, then remove all spaces. -/
def cleanPrice (raw : String) : String := ⟨(sanitize raw).data.filter (· ≠ ' ')⟩

/-- balScan models the loop of `detail::isBalancedQuotes`: toggle `inQuotes` on
each quote, except that a doubled quote seen while inside quotes is skipped. -/
def balScan (inQuotes : Bool) : List Char → Bool
  | [] => !inQuotes
  | '"' :: '"' :: cs1 =>
    if inQuotes then balScan true cs1
    else balScan true ('"' :: cs1)
  | '"' :: cs => balScan (!inQuotes) cs
  | _ :: cs => balScan inQuotes cs

/-- isBalancedQuotes models `detail::isBalancedQuotes` (the unused `cnt`
counter of the C++ is omitted; only `inQuotes` feeds the result). -/
def isBalancedQuotes (s : String) : Bool := balScan false s.data

/-- accumRecord models the continuation loop of `detail::readRecord`: while the
accumulated record is unbalanced, append the next physical line after an
embedded newline; stop (best effort) when input is exhausted.  Returns the
record together with the unconsumed lines. -/
def accumRecord (rec : String) : List String → String × List String
  | [] => (rec, [])
  | l :: ls =>
    if isBalancedQuotes rec then (rec, l :: ls)
    else accumRecord (rec ++ "\n" ++ l) ls

/-- readRecord models `detail::readRecord`, with the input stream rendered as
the list of remaining physical lines: `none` is end of input (`getline`
failure on the first read). -/
def readRecord : List String → Option (String × List String)
  | [] => none
  | l :: ls => some (accumRecord l ls)

/-- splitRecordsAux turns the physical lines into the stream of logical
records produced by iterating `readRecord`: `rec` is the record being
accumulated (structural-recursion fusion of `accumRecord` into the iteration;
the bridging lemma `splitRecordsAux_eq_accumRecord` below proves the fusion
faithful to `readRecord`). -/
def splitRecordsAux (rec : String) : List String → List String
  | [] => [rec]
  | l :: ls =>
    if isBalancedQuotes rec then rec :: splitRecordsAux l ls
    else splitRecordsAux (rec ++ "\n" ++ l) ls

/-- splitRecords is the list of logical records obtained by iterating
`detail::readRecord` until end of input. -/
def splitRecords : List String → List String
  | [] => []
  | l :: ls => splitRecordsAux l ls

/-- parseScan models the loop of `detail::parseCsvLine`: two-state scan with
`cur` the field under construction and `acc` the fields already emitted. -/
def parseScan (inQuotes : Bool) (cur : List Char) (acc : List (List Char)) :
    List Char → List (List Char)
  | [] => acc ++ [cur]
  | '"' :: '"' :: cs1 =>
    if inQuotes then parseScan true (cur ++ ['"']) acc cs1
    else parseScan true cur acc ('"' :: cs1)
  | '"' :: cs =>
    if inQuotes then parseScan false cur acc cs
    else parseScan true cur acc cs
  | ',' :: cs =>
    if inQuotes then parseScan true (cur ++ [',']) acc cs
    else parseScan false [] (acc ++ [cur]) cs
  | c :: cs => parseScan inQuotes (cur ++ [c]) acc cs

/-- parseCsvLine models `detail::parseCsvLine`. -/
def parseCsvLine (line : String) : List String :=
  (parseScan false [] [] line.data).map (fun l => (⟨l⟩ : String))

/-- buildHeader models `detail::buildHeader` followed by `HeaderMap::get`: the
header map sends a column name to the position of the column with that trimmed
name (later columns overwrite earlier ones, as unordered_map assignment does),
and to `none` — the model of the `-1` sentinel — when no column matches. -/
def buildHeader (headerLine : String) : String → Option Nat := fun name =>
  let cols := (parseCsvLine headerLine).map trim
  (List.range cols.length).foldl (fun acc i => if cols.getD i "" = name then some i else acc) none

/-- safeGet models `detail::safeGet`: empty string for the absent-column
sentinel or an out-of-range index. -/
def safeGet (row : List String) (idx : Option Nat) : String :=
  match idx with
  | none => ""
  | some i => if i < row.length then row.getD i "" else ""

/-- Product models `inv::Product`. -/
structure Product where
  uniqId : String
  productName : String
  brandName : String
  category : String
  categories : List String
  listPrice : String
  sellingPrice : String
  quantity : String
  asin : String
  modelNumber : String
  productDescription : String
  stock : String
deriving DecidableEq, Repr

/-- buildProduct models the per-record entity assembly inside `loadCsv`
(field extraction by header name, sanitization, category extraction, and the
About-Product fallback for an empty sanitized Product Description). -/
def buildProduct (hm : String → Option Nat) (cols : List String) : Product :=
  let cats := extractCategories (sanitize (safeGet cols (hm "Category")))
  { uniqId := sanitize (safeGet cols (hm "Uniq Id"))
    productName := sanitize (safeGet cols (hm "Product Name"))
    brandName := sanitize (safeGet cols (hm "Brand Name"))
    category := joinCategories cats
    categories := cats
    listPrice := cleanPrice (safeGet cols (hm "List Price"))
    sellingPrice := cleanPrice (safeGet cols (hm "Selling Price"))
    quantity := sanitize (safeGet cols (hm "Quantity"))
    asin := sanitize (safeGet cols (hm "Asin"))
    modelNumber := sanitize (safeGet cols (hm "Model Number"))
    productDescription :=
      let d := sanitize (safeGet cols (hm "Product Description"))
      if d = "" then sanitize (safeGet cols (hm "About Product")) else d
    stock := sanitize (safeGet cols (hm "Stock")) }

/-- loaderFieldNames lists the column names `loadCsv` reads. -/
def loaderFieldNames : List String :=
  ["Uniq Id", "Product Name", "Brand Name", "Category", "List Price",
   "Selling Price", "Quantity", "Asin", "Model Number", "Product Description",
   "About Product", "Stock"]

/-- Node models `HashTable<T>::Node`. -/
structure Node (T : Type) where
  key : String
  value : T
deriving DecidableEq, Repr

/-- HashTable models `inv::HashTable<T>`: a vector of chains plus the entry
count `size_`. -/
structure HashTable (T : Type) where
  buckets : List (List (Node T))
  size : Nat
deriving DecidableEq, Repr

/-- mkHashTable models the constructor `HashTable(bucketCount = 1003)`:
`bucketCount` empty chains, entry count zero. -/
def mkHashTable (T : Type) (bucketCount : Nat := 1003) : HashTable T :=
  { buckets := List.replicate bucketCount [], size := 0 }

/-- nthBucket is `buckets_[i]` (with `[]` as the out-of-range default; the C++
only ever indexes in range). -/
def nthBucket {T : Type} (bs : List (List (Node T))) (i : Nat) : List (Node T) :=
  bs.getD i []

/-- bucketCount models `HashTable::bucketCount()`. -/
def HashTable.bucketCount {T : Type} (ht : HashTable T) : Nat := ht.buckets.length

/-- indexFor models `HashTable::indexFor`: hash modulo bucket count, for an
arbitrary hash function `h` standing in for `std::hash<std::string>`. -/
def indexFor {T : Type} (h : String → Nat) (ht : HashTable T) (key : String) : Nat :=
  h key % ht.buckets.length

/-- loadFactor models `HashTable::loadFactor()` as an exact rational (the C++
computes `size_ / buckets_.size()` in `double`, returning `0.0` for an empty
bucket vector). -/
def HashTable.loadFactor {T : Type} (ht : HashTable T) : ℚ :=
  if ht.buckets.length = 0 then 0
  else (ht.size : ℚ) / (ht.buckets.length : ℚ)

/-- loadFactorExceeds is the exact integer rendering of the rehash trigger
`loadFactor() > kMaxLoadFactor` with `kMaxLoadFactor = 0.9`: for a nonempty
bucket vector, `size/bucketCount > 9/10` iff `10*size > 9*bucketCount`. -/
def loadFactorExceeds (size bucketCount : Nat) : Bool :=
  if bucketCount = 0 then false else decide (10 * size > 9 * bucketCount)

/-- findInBucket models the chain scan shared by `find`/`insert`: the value of
the first node whose key matches. -/
def findInBucket {T : Type} (key : String) : List (Node T) → Option T
  | [] => none
  | nd :: ns => if nd.key = key then some nd.value else findInBucket key ns

/-- HashTable.find models `HashTable::find` (pointer-to-value becomes
`Option T`). -/
def HashTable.find {T : Type} (ht : HashTable T) (h : String → Nat) (key : String) : Option T :=
  findInBucket key (nthBucket ht.buckets (indexFor h ht key))

/-- updateBucket models the update branch of `HashTable::insert`: replace the
value of the first node whose key matches, `none` when no node matches. -/
def updateBucket {T : Type} (key : String) (v : T) : List (Node T) → Option (List (Node T))
  | [] => none
  | nd :: ns =>
    if nd.key = key then some ({ key := nd.key, value := v } :: ns)
    else (updateBucket key v ns).map (nd :: ·)

/-- rehashStep is one iteration of the inner loop of `HashTable::rehash`:
append the node to the chain at its new index. -/
def rehashStep {T : Type} (h : String → Nat) (m : Nat) (bs : List (List (Node T)))
    (nd : Node T) : List (List (Node T)) :=
  bs.set (h nd.key % m) (nthBucket bs (h nd.key % m) ++ [nd])

/-- rehash models `HashTable::rehash(newBucketCount)`: distribute all nodes,
in bucket order then chain order, into `m` fresh chains. -/
def rehash {T : Type} (h : String → Nat) (bs : List (List (Node T))) (m : Nat) :
    List (List (Node T)) :=
  bs.flatten.foldl (rehashStep h m) (List.replicate m [])

/-- HashTable.insert models `HashTable::insert`: update in place when the key
exists (returning false), otherwise append a node, bump `size_`, and rehash to
`2 * bucketCount + 1` when the load factor exceeds the threshold (returning
true). -/
def HashTable.insert {T : Type} (ht : HashTable T) (h : String → Nat) (key : String) (v : T) :
    HashTable T × Bool :=
  let i := indexFor h ht key
  let b := nthBucket ht.buckets i
  match updateBucket key v b with
  | some b1 => ({ buckets := ht.buckets.set i b1, size := ht.size }, false)
  | none =>
      let buckets1 := ht.buckets.set i (b ++ [{ key := key, value := v }])
      let size1 := ht.size + 1
      if loadFactorExceeds size1 buckets1.length then
        ({ buckets := rehash h buckets1 (buckets1.length * 2 + 1), size := size1 }, true)
      else ({ buckets := buckets1, size := size1 }, true)

/-- removeFromBucket models the erase scan: drop the first node whose key
matches, `none` when no node matches. -/
def removeFromBucket {T : Type} (key : String) : List (Node T) → Option (List (Node T))
  | [] => none
  | nd :: ns =>
    if nd.key = key then some ns
    else (removeFromBucket key ns).map (nd :: ·)

/-- HashTable.erase models `HashTable::erase`. -/
def HashTable.erase {T : Type} (ht : HashTable T) (h : String → Nat) (key : String) :
    HashTable T × Bool :=
  let i := indexFor h ht key
  match removeFromBucket key (nthBucket ht.buckets i) with
  | some b1 => ({ buckets := ht.buckets.set i b1, size := ht.size - 1 }, true)
  | none => (ht, false)

/-- TableOp is one public mutating-or-reading call on the table. -/
inductive TableOp (T : Type) where
  | ins (key : String) (value : T)
  | del (key : String)
  | qry (key : String)

/-- applyOp runs one call (a `find` call leaves the state unchanged). -/
def applyOp {T : Type} (h : String → Nat) (ht : HashTable T) : TableOp T → HashTable T
  | .ins k v => (ht.insert h k v).1
  | .del k => (ht.erase h k).1
  | .qry _ => ht

/-- runOps runs a sequence of calls left to right. -/
def runOps {T : Type} (h : String → Nat) (ht : HashTable T) (ops : List (TableOp T)) :
    HashTable T :=
  ops.foldl (applyOp h) ht

/-- runInserts runs a sequence of `insert(key, value)` calls left to right. -/
def runInserts {T : Type} (h : String → Nat) (ht : HashTable T)
    (ops : List (String × T)) : HashTable T :=
  ops.foldl (fun t p => (t.insert h p.1 p.2).1) ht

/-- lastInserted is the specification-side association: the value of the most
recent insert of `k` in the sequence, if any. -/
def lastInserted {T : Type} (ops : List (String × T)) (k : String) : Option T :=
  ops.foldl (fun acc p => if p.1 = k then some p.2 else acc) none

/-- distinctKeys is the specification-side list of distinct keys of the
sequence, in order of first occurrence. -/
def distinctKeys {T : Type} (ops : List (String × T)) : List String :=
  ops.foldl (fun acc p => if p.1 ∈ acc then acc else acc ++ [p.1]) []

/-- emptyIndex is a freshly constructed category index. -/
def emptyIndex : String → List String := fun _ => []

/-- idxAppend models `categoryIndex[cat].push_back(id)` on the
category-to-ids mapping. -/
def idxAppend (idx : String → List String) (cat id : String) : String → List String :=
  fun c => if c = cat then idx cat ++ [id] else idx c

/-- processRecord models one iteration of the record loop of `loadCsv`: skip
an empty record, tokenize, build the entity, skip it when its primary key is
empty, otherwise insert it and append its id to each of its categories'
buckets. -/
def processRecord (h : String → Nat) (hm : String → Option Nat)
    (st : HashTable Product × (String → List String)) (rec : String) :
    HashTable Product × (String → List String) :=
  if rec = "" then st
  else
    let p := buildProduct hm (parseCsvLine rec)
    if p.uniqId = "" then st
    else
      ((st.1.insert h p.uniqId p).1,
       p.categories.foldl (fun ix c => idxAppend ix c p.uniqId) st.2)

/-- loadCsv models `inv::loadCsv`, with the data source rendered as
`Option (List String)`: `none` is a source that cannot be opened, `some lines`
an opened source whose physical lines are `lines` (so `some []` is an opened
but empty source, on which the header `getline` fails).  Returns the C++
boolean result together with the final table and category index. -/
def loadCsv (h : String → Nat) (src : Option (List String)) (table : HashTable Product)
    (categoryIndex : String → List String) :
    Bool × HashTable Product × (String → List String) :=
  match src with
  | none => (false, table, categoryIndex)
  | some [] => (false, table, categoryIndex)
  | some (headerLine :: rest) =>
      let hm := buildHeader headerLine
      let st := (splitRecords rest).foldl (processRecord h hm) (table, categoryIndex)
      (true, st.1, st.2)

/-- recordProducts is the specification-side list of entities stored from a
stream of logical records: one per nonempty record whose sanitized primary
key is nonempty. -/
def recordProducts (hm : String → Option Nat) (recs : List String) : List Product :=
  ((recs.filter (· ≠ "")).map (fun rec => buildProduct hm (parseCsvLine rec))).filter
    (fun p => p.uniqId ≠ "")

/-- validProducts is the specification-side list of entities a load stores. -/
def validProducts (hm : String → Option Nat) (rest : List String) : List Product :=
  recordProducts hm (splitRecords rest)

/-- joinNL joins physical lines with the embedded newline separator used by
`readRecord`. -/
def joinNL : List String → String
  | [] => ""
  | [l] => l
  | l :: ls => l ++ "\n" ++ joinNL ls

theorem splitRecordsAux_eq_accumRecord (ls : List String) : ∀ rec : String,
    splitRecordsAux rec ls =
      (accumRecord rec ls).1 :: splitRecords (accumRecord rec ls).2 := by
  induction ls with
  | nil => intro rec; rfl
  | cons l ls ih =>
      intro rec
      by_cases hbal : isBalancedQuotes rec = true
      · simp [splitRecordsAux, accumRecord, hbal, splitRecords]
      · simp only [splitRecordsAux, accumRecord, if_neg hbal]
        exact ih (rec ++ "\n" ++ l)

theorem joinNL_cons_cons (a b : String) (t : List String) :
    joinNL (a :: b :: t) = a ++ "\n" ++ joinNL (b :: t) := rfl

theorem joinNL_glue (a b : String) (t : List String) :
    joinNL ((a ++ "\n" ++ b) :: t) = a ++ "\n" ++ joinNL (b :: t) := by
  cases t with
  | nil => rfl
  | cons c t => simp only [joinNL_cons_cons, joinNL, String.append_assoc]

theorem accumRecord_spec (ls : List String) : ∀ l : String,
    ∃ k, k ≤ ls.length ∧
      accumRecord l ls = (joinNL (l :: ls.take k), ls.drop k) ∧
      (isBalancedQuotes (joinNL (l :: ls.take k)) = true ∨ k = ls.length) ∧
      (∀ j, j < k → isBalancedQuotes (joinNL (l :: ls.take j)) = false) := by
  induction ls with
  | nil =>
      intro l
      exact ⟨0, Nat.le_refl 0, rfl, Or.inr rfl, fun j hj => absurd hj (Nat.not_lt_zero j)⟩
  | cons e ls ih =>
      intro l
      by_cases hbal : isBalancedQuotes l = true
      · refine ⟨0, Nat.zero_le _, ?_, Or.inl hbal, fun j hj => absurd hj (Nat.not_lt_zero j)⟩
        simp [accumRecord, hbal, joinNL]
      · obtain ⟨k, hk, heq, hend, hpre⟩ := ih (l ++ "\n" ++ e)
        refine ⟨k + 1, Nat.succ_le_succ hk, ?_, ?_, ?_⟩
        · simpa [accumRecord, hbal, List.take, List.drop, joinNL_glue] using heq
        · rcases hend with hb | hb
          · exact Or.inl (by simpa [List.take, joinNL_glue] using hb)
          · exact Or.inr (by simp [hb])
        · intro j hj
          cases j with
          | zero => simpa [joinNL] using Bool.eq_false_iff.mpr hbal
          | succ j =>
              have := hpre j (Nat.lt_of_succ_lt_succ hj)
              simpa [List.take, joinNL_glue] using this

/-- Claim C7: the balanced-quote check is the inside-quotes-flag scan and is
false on `field1,"field2`; record assembly appends following physical lines
with an embedded newline separator until the accumulated record is balanced,
and returns the accumulated text as-is when input ends mid-quote. -/
theorem spec_c7_balanced_quotes_and_record_assembly :
    isBalancedQuotes "field1,\"field2" = false ∧
    isBalancedQuotes ("field1,\"field2" ++ "\n" ++ "rest\"") = true ∧
    (∀ (l : String) (ls : List String),
      ∃ k, k ≤ ls.length ∧
        readRecord (l :: ls) = some (joinNL (l :: ls.take k), ls.drop k) ∧
        (isBalancedQuotes (joinNL (l :: ls.take k)) = true ∨ k = ls.length) ∧
        (∀ j, j < k → isBalancedQuotes (joinNL (l :: ls.take j)) = false)) := by
  refine ⟨by decide, by decide, fun l ls => ?_⟩
  obtain ⟨k, hk, heq, hend, hpre⟩ := accumRecord_spec ls l
  exact ⟨k, hk, by simpa [readRecord] using congrArg some heq, hend, hpre⟩

/-- Witness for C7 at a concrete unbalanced first line: the record joins the
continuation line and stops there. -/
theorem spec_c7_balanced_quotes_and_record_assembly_witness :
    ∃ k, k ≤ ["rest\"", "next"].length ∧
      readRecord ["field1,\"field2", "rest\"", "next"] =
        some (joinNL ("field1,\"field2" :: List.take k ["rest\"", "next"]),
          List.drop k ["rest\"", "next"]) ∧
      (isBalancedQuotes (joinNL ("field1,\"field2" :: List.take k ["rest\"", "next"])) = true ∨
        k = ["rest\"", "next"].length) ∧
      (∀ j, j < k →
        isBalancedQuotes (joinNL ("field1,\"field2" :: List.take j ["rest\"", "next"])) = false) :=
  spec_c7_balanced_quotes_and_record_assembly.2.2 "field1,\"field2" ["rest\"", "next"]

/-- Claim C8: field splitting follows the two-state scan on the two record
examples: quoted commas stay literal, enclosing quotes are removed, doubled
quotes collapse to one literal quote, and the final field needs no trailing
comma. -/
theorem spec_c8_field_splitting_examples :
    parseCsvLine "a,b,\"c,d\",e" = ["a", "b", "c,d", "e"] ∧
    parseCsvLine "\"He said \"\"Hi\"\"\",next" = ["He said \"Hi\"", "next"] := by
  exact ⟨by decide, by decide⟩

/-- Counterexample for C5: an opened source with no lines at all (an empty
file) makes `loadCsv` return false even though the source could be opened
(`some []` is not the unopenable source `none`). -/
theorem spec_c5_counterexample :
    (loadCsv (fun s => s.length) (some []) (mkHashTable Product 8) emptyIndex).1 = false ∧
    some ([] : List String) ≠ none := ⟨rfl, by decide⟩

/-- Claim C5 as amended: `loadCsv` returns true iff the source can be opened
and yields at least one physical line (the header); it returns false both for
an unopenable source and for an opened source that is empty. -/
theorem spec_c5_load_result (h : String → Nat) (src : Option (List String))
    (table : HashTable Product) (categoryIndex : String → List String) :
    (loadCsv h src table categoryIndex).1 = true ↔
      ∃ headerLine rest, src = some (headerLine :: rest) := by
  match src with
  | none => simp [loadCsv]
  | some [] => simp [loadCsv]
  | some (headerLine :: rest) => simp [loadCsv]

theorem dropWhile_fixed_append (x y : List Char) (hx : x ≠ [])
    (h : x.dropWhile isSpaceChar = x) :
    (x ++ y).dropWhile isSpaceChar = x ++ y := by
  cases x with
  | nil => exact absurd rfl hx
  | cons c t =>
      have hc : isSpaceChar c = false := by
        by_contra hcs
        have hcs' : isSpaceChar c = true := by
          cases hcb : isSpaceChar c with
          | false => exact absurd hcb hcs
          | true => rfl
        have h1 : (c :: t).dropWhile isSpaceChar = t.dropWhile isSpaceChar := by
          simp [List.dropWhile_cons, hcs']
        have h2 : (t.dropWhile isSpaceChar).length ≤ t.length :=
          (List.dropWhile_sublist isSpaceChar).length_le
        rw [h1] at h
        have h3 := congrArg List.length h
        simp at h3
        omega
      simp [List.dropWhile_cons, hc]

theorem ltrimL_cons_space (z : List Char) : ltrimL (' ' :: z) = ltrimL z := by
  simp [ltrimL, List.dropWhile_cons, isSpaceChar]

theorem rtrimL_append_space (z : List Char) : rtrimL (z ++ [' ']) = rtrimL z := by
  simp [rtrimL, List.reverse_append, List.dropWhile_cons, isSpaceChar]

theorem trimL_append_space (x : List Char) : trimL (x ++ [' ']) = trimL x := by
  unfold trimL
  by_cases hx : ltrimL x = []
  · simp only [ltrimL] at hx
    have h1 : ltrimL (x ++ [' ']) = [] := by
      simp [ltrimL, List.dropWhile_append, hx, List.dropWhile_cons, isSpaceChar]
    rw [h1]
    simp [ltrimL, hx]
  · simp only [ltrimL] at hx
    have h1 : ltrimL (x ++ [' ']) = ltrimL x ++ [' '] := by
      simp [ltrimL, List.dropWhile_append, hx]
    rw [h1, rtrimL_append_space]

theorem trimL_cons_space (x : List Char) : trimL (' ' :: x) = trimL x := by
  unfold trimL
  rw [ltrimL_cons_space]

theorem trimL_of_fixed (c : String) (hl : ltrim c = c) (hr : rtrim c = c) :
    trimL c.data = c.data := by
  have hl' : ltrimL c.data = c.data := congrArg String.data hl
  have hr' : rtrimL c.data = c.data := congrArg String.data hr
  unfold trimL
  rw [hl', hr']

theorem splitPipeAux_no_pipe_prefix (xs : List Char) : ∀ (cur rest : List Char),
    '|' ∉ xs → splitPipeAux cur (xs ++ rest) = splitPipeAux (cur ++ xs) rest := by
  induction xs with
  | nil => intro cur rest _; simp
  | cons c t ih =>
      intro cur rest hx
      have hc : ¬ c = '|' := fun hc => hx (hc ▸ List.mem_cons_self c t)
      have ht : '|' ∉ t := fun hmem => hx (List.mem_cons_of_mem c hmem)
      simp only [List.cons_append, splitPipeAux, if_neg hc, List.append_eq]
      rw [ih (cur ++ [c]) rest ht]
      simp

/-- joinTailChars is the character stream contributed by the non-first
categories in `joinCategories`. -/
def joinTailChars : List String → List Char
  | [] => []
  | d :: ds => ' ' :: '|' :: ' ' :: (d.data ++ joinTailChars ds)

theorem joinCategories_data (cs : List String) : ∀ c : String,
    (joinCategories (c :: cs)).data = c.data ++ joinTailChars cs := by
  induction cs with
  | nil => intro c; simp [joinCategories, joinTailChars]
  | cons d ds ih =>
      intro c
      have h1 : joinCategories (c :: d :: ds) = joinCategories ((c ++ " | " ++ d) :: ds) := rfl
      rw [h1, ih (c ++ " | " ++ d)]
      simp only [String.data_append, joinTailChars]
      simp [show (" | " : String).data = [' ', '|', ' '] from rfl]

/-- partsFrom is the list of raw (untrimmed) parts the pipe split produces
from the rejoined display form: the first part keeps a trailing space, middle
parts gain spaces on both sides, the last part keeps a leading space. -/
def partsFrom (x : List Char) : List (List Char) → List (List Char)
  | [] => [x]
  | d :: ds => (x ++ [' ']) :: partsFrom (' ' :: d) ds

theorem splitPipeAux_joinTail (cs : List String) : ∀ x : List Char, '|' ∉ x →
    (∀ c ∈ cs, '|' ∉ c.data) →
    splitPipeAux x (joinTailChars cs) = partsFrom x (cs.map String.data) := by
  induction cs with
  | nil => intro x _ _; simp [joinTailChars, splitPipeAux, partsFrom]
  | cons d ds ih =>
      intro x hx hcs
      have hd : '|' ∉ d.data := hcs d (List.mem_cons_self d ds)
      have hds : ∀ c ∈ ds, '|' ∉ c.data := fun c hc => hcs c (List.mem_cons_of_mem d hc)
      show splitPipeAux x (' ' :: '|' :: ' ' :: (d.data ++ joinTailChars ds)) = _
      have s1 : splitPipeAux x (' ' :: '|' :: ' ' :: (d.data ++ joinTailChars ds)) =
          splitPipeAux (x ++ [' ']) ('|' :: ' ' :: (d.data ++ joinTailChars ds)) := by
        simp [splitPipeAux]
      have s2 : splitPipeAux (x ++ [' ']) ('|' :: ' ' :: (d.data ++ joinTailChars ds)) =
          (x ++ [' ']) :: splitPipeAux [] (' ' :: (d.data ++ joinTailChars ds)) := by
        simp [splitPipeAux]
      have s3 : splitPipeAux ([] : List Char) (' ' :: (d.data ++ joinTailChars ds)) =
          splitPipeAux [' '] (d.data ++ joinTailChars ds) := by
        simp [splitPipeAux]
      have s4 : splitPipeAux [' '] (d.data ++ joinTailChars ds) =
          splitPipeAux (' ' :: d.data) (joinTailChars ds) := by
        have := splitPipeAux_no_pipe_prefix d.data [' '] (joinTailChars ds) hd
        simpa using this
      rw [s1, s2, s3, s4, ih (' ' :: d.data) (by simp [hd]) hds]
      simp [partsFrom]

theorem map_trimL_partsFrom (cs : List (List Char))
    (hcs : ∀ d ∈ cs, trimL (' ' :: d) = d) : ∀ x : List Char,
    (partsFrom x cs).map trimL = trimL x :: cs := by
  induction cs with
  | nil => intro x; simp [partsFrom]
  | cons d ds ih =>
      intro x
      have hd : trimL (' ' :: d) = d := hcs d (List.mem_cons_self d ds)
      have hds : ∀ e ∈ ds, trimL (' ' :: e) = e := fun e he => hcs e (List.mem_cons_of_mem d he)
      simp only [partsFrom, List.map_cons, trimL_append_space, ih hds (' ' :: d), hd]

theorem map_mk_data (cs : List String) : cs.map (fun c => (⟨c.data⟩ : String)) = cs := by
  induction cs with
  | nil => rfl
  | cons c t ih =>
      show (⟨c.data⟩ : String) :: t.map (fun c => (⟨c.data⟩ : String)) = c :: t
      rw [ih]

theorem cleanParts_clean (l : List String) : ∀ acc : List String,
    (∀ p ∈ l, p ≠ "") → l.Nodup → (∀ p ∈ l, p ∉ acc) →
    cleanParts acc l = acc ++ l := by
  induction l with
  | nil => intro acc _ _ _; simp [cleanParts]
  | cons p ps ih =>
      intro acc hne hnd hdisj
      have hp : p ≠ "" := hne p (List.mem_cons_self p ps)
      have hpacc : p ∉ acc := hdisj p (List.mem_cons_self p ps)
      have hnotps : p ∉ ps := (List.nodup_cons.mp hnd).1
      simp only [cleanParts, if_neg hp, if_neg hpacc]
      rw [ih (acc ++ [p]) (fun q hq => hne q (List.mem_cons_of_mem p hq))
        (List.nodup_cons.mp hnd).2
        (fun q hq => by
          intro hmem
          rcases List.mem_append.mp hmem with h1 | h1
          · exact hdisj q (List.mem_cons_of_mem p hq) h1
          · exact hnotps (by simpa using (List.mem_singleton.mp h1) ▸ hq))]
      simp

/-- Claim C9: for a nonempty list of pairwise-distinct, nonempty,
pipe-free categories with no leading or trailing whitespace, category
extraction inverts the rejoined display form. -/
theorem spec_c9_extract_join_roundtrip (cats : List String) (hne : cats ≠ [])
    (hnd : cats.Nodup)
    (hc : ∀ c ∈ cats, c ≠ "" ∧ '|' ∉ c.data ∧ ltrim c = c ∧ rtrim c = c) :
    extractCategories (joinCategories cats) = cats := by
  match cats, hne with
  | c :: cs, _ =>
    have hchead := hc c (List.mem_cons_self c cs)
    have hctail : ∀ d ∈ cs, d ≠ "" ∧ '|' ∉ d.data ∧ ltrim d = d ∧ rtrim d = d :=
      fun d hd => hc d (List.mem_cons_of_mem c hd)
    have hparts : (splitPipeAux [] (joinCategories (c :: cs)).data).map
        (fun p => (⟨trimL p⟩ : String)) = c :: cs := by
      rw [joinCategories_data cs c]
      have h0 : splitPipeAux ([] : List Char) (c.data ++ joinTailChars cs) =
          splitPipeAux c.data (joinTailChars cs) := by
        have := splitPipeAux_no_pipe_prefix c.data [] (joinTailChars cs) hchead.2.1
        simpa using this
      rw [h0, splitPipeAux_joinTail cs c.data hchead.2.1 (fun d hd => (hctail d hd).2.1)]
      have htr : ∀ d ∈ cs.map String.data, trimL (' ' :: d) = d := by
        intro d hd
        rcases List.mem_map.mp hd with ⟨e, he, rfl⟩
        rw [trimL_cons_space, trimL_of_fixed e (hctail e he).2.2.1 (hctail e he).2.2.2]
      have hmap := map_trimL_partsFrom (cs.map String.data) htr c.data
      have : (partsFrom c.data (cs.map String.data)).map (fun p => (⟨trimL p⟩ : String)) =
          (c.data :: cs.map String.data).map (fun p => (⟨p⟩ : String)) := by
        have hcfix : trimL c.data = c.data :=
          trimL_of_fixed c hchead.2.2.1 hchead.2.2.2
        calc (partsFrom c.data (cs.map String.data)).map (fun p => (⟨trimL p⟩ : String))
            = ((partsFrom c.data (cs.map String.data)).map trimL).map
                (fun p => (⟨p⟩ : String)) := by rw [List.map_map]; rfl
          _ = (trimL c.data :: cs.map String.data).map (fun p => (⟨p⟩ : String)) := by
                rw [hmap]
          _ = (c.data :: cs.map String.data).map (fun p => (⟨p⟩ : String)) := by
                rw [hcfix]
      rw [this]
      simp only [List.map_cons, List.map_map]
      have hmk : cs.map (fun p => (⟨String.data p⟩ : String)) = cs := map_mk_data cs
      show (⟨c.data⟩ : String) :: cs.map
        ((fun p => (⟨p⟩ : String)) ∘ String.data) = c :: cs
      rw [show cs.map ((fun p => (⟨p⟩ : String)) ∘ String.data) =
        cs.map (fun p => (⟨String.data p⟩ : String)) from rfl, hmk]
    have hclean : cleanParts [] (c :: cs) = c :: cs := by
      have := cleanParts_clean (c :: cs) []
        (fun p hp => (hc p hp).1) hnd (fun p _ => List.not_mem_nil p)
      simpa using this
    have hgoal : extractCategories (joinCategories (c :: cs)) =
        (if cleanParts [] ((splitPipeAux [] (joinCategories (c :: cs)).data).map
            (fun p => (⟨trimL p⟩ : String))) = [] then ["NA"]
         else cleanParts [] ((splitPipeAux [] (joinCategories (c :: cs)).data).map
            (fun p => (⟨trimL p⟩ : String)))) := rfl
    rw [hgoal, hparts, hclean]
    simp

/-- Witness for C9: the roundtrip at the concrete pair of categories. -/
theorem spec_c9_extract_join_roundtrip_witness :
    extractCategories (joinCategories ["Electronics", "Computers"]) =
      ["Electronics", "Computers"] :=
  spec_c9_extract_join_roundtrip ["Electronics", "Computers"] (by decide) (by decide)
    (by decide)

/-- Claim C10: the stored entity's description falls back to the sanitized
"About Product" field exactly when the sanitized "Product Description" field
is empty; when it is nonempty, the entity is fully determined by the other
fields, so the "About Product" column has no effect. -/
theorem spec_c10_description_fallback (hm : String → Option Nat) (cols : List String)
    (hm2 : String → Option Nat) (cols2 : List String) :
    ((buildProduct hm cols).productDescription =
      (if sanitize (safeGet cols (hm "Product Description")) = ""
       then sanitize (safeGet cols (hm "About Product"))
       else sanitize (safeGet cols (hm "Product Description")))) ∧
    (sanitize (safeGet cols (hm "Product Description")) ≠ "" →
      (∀ name ∈ loaderFieldNames, name ≠ "About Product" →
        safeGet cols2 (hm2 name) = safeGet cols (hm name)) →
      buildProduct hm2 cols2 = buildProduct hm cols) := by
  constructor
  · rfl
  · intro hd hag
    have e1 := hag "Uniq Id" (by decide) (by decide)
    have e2 := hag "Product Name" (by decide) (by decide)
    have e3 := hag "Brand Name" (by decide) (by decide)
    have e4 := hag "Category" (by decide) (by decide)
    have e5 := hag "List Price" (by decide) (by decide)
    have e6 := hag "Selling Price" (by decide) (by decide)
    have e7 := hag "Quantity" (by decide) (by decide)
    have e8 := hag "Asin" (by decide) (by decide)
    have e9 := hag "Model Number" (by decide) (by decide)
    have e10 := hag "Product Description" (by decide) (by decide)
    have e11 := hag "Stock" (by decide) (by decide)
    simp only [buildProduct, e1, e2, e3, e4, e5, e6, e7, e8, e9, e10, e11, if_neg hd]

/-- Witness for C10: with a nonempty sanitized description, changing only the
About Product column leaves the stored entity unchanged. -/
theorem spec_c10_description_fallback_witness :
    buildProduct (buildHeader "Uniq Id,Product Description,About Product")
        (parseCsvLine "X1,desc,aboutB") =
      buildProduct (buildHeader "Uniq Id,Product Description,About Product")
        (parseCsvLine "X1,desc,aboutA") :=
  (spec_c10_description_fallback
      (buildHeader "Uniq Id,Product Description,About Product")
      (parseCsvLine "X1,desc,aboutA")
      (buildHeader "Uniq Id,Product Description,About Product")
      (parseCsvLine "X1,desc,aboutB")).2 (by decide) (by decide)

theorem cleanParts_nodup (l : List String) : ∀ acc : List String, acc.Nodup →
    (cleanParts acc l).Nodup := by
  induction l with
  | nil => intro acc h; simpa [cleanParts] using h
  | cons p ps ih =>
      intro acc hacc
      by_cases hp : p = ""
      · simpa [cleanParts, hp] using ih acc hacc
      · by_cases hmem : p ∈ acc
        · simpa [cleanParts, hp, hmem] using ih acc hacc
        · have : (acc ++ [p]).Nodup := by
            rw [List.nodup_append]
            refine ⟨hacc, List.nodup_singleton p, ?_⟩
            intro a ha hap
            have : a = p := by simpa using hap
            exact hmem (this ▸ ha)
          simpa [cleanParts, hp, hmem] using ih (acc ++ [p]) this

theorem extractCategories_nodup (raw : String) : (extractCategories raw).Nodup := by
  unfold extractCategories
  by_cases hcl : cleanParts []
      ((splitPipeAux [] raw.data).map (fun p => (⟨trimL p⟩ : String))) = []
  · simp [hcl]
  · simpa [hcl] using
      cleanParts_nodup ((splitPipeAux [] raw.data).map (fun p => (⟨trimL p⟩ : String)))
        [] List.nodup_nil

theorem catFold_apply (cats : List String) : ∀ (idx : String → List String) (id c : String),
    cats.Nodup →
    (cats.foldl (fun ix cat => idxAppend ix cat id) idx) c =
      idx c ++ (if c ∈ cats then [id] else []) := by
  induction cats with
  | nil => intro idx id c _; simp
  | cons cat cats ih =>
      intro idx id c hnd
      have hnd' : cats.Nodup := (List.nodup_cons.mp hnd).2
      have hhead : cat ∉ cats := (List.nodup_cons.mp hnd).1
      simp only [List.foldl_cons]
      rw [ih (idxAppend idx cat id) id c hnd']
      by_cases hc : c = cat
      · subst hc
        simp [idxAppend, hhead]
      · simp [idxAppend, hc]

theorem loadFold_index (h : String → Nat) (hm : String → Option Nat)
    (recs : List String) : ∀ (st : HashTable Product × (String → List String)) (c : String),
    ((recs.foldl (processRecord h hm) st).2) c =
      st.2 c ++ ((recordProducts hm recs).filter (fun p => c ∈ p.categories)).map
        (fun p => p.uniqId) := by
  induction recs with
  | nil => intro st c; simp [recordProducts]
  | cons rec recs ih =>
      intro st c
      by_cases hrec : rec = ""
      · have hpr : processRecord h hm st rec = st := by simp [processRecord, hrec]
        simp only [List.foldl_cons, hpr, ih st c]
        simp [recordProducts, hrec]
      · set p := buildProduct hm (parseCsvLine rec) with hp
        by_cases hid : p.uniqId = ""
        · have hpr : processRecord h hm st rec = st := by
            simp [processRecord, hrec, ← hp, hid]
          simp only [List.foldl_cons, hpr, ih st c]
          simp [recordProducts, hrec, List.filter_cons, ← hp, hid]
        · have hpr : processRecord h hm st rec =
              ((st.1.insert h p.uniqId p).1,
               p.categories.foldl (fun ix cat => idxAppend ix cat p.uniqId) st.2) := by
            simp [processRecord, hrec, ← hp, hid]
          have hcats : p.categories.Nodup := by
            rw [hp]
            exact extractCategories_nodup _
          simp only [List.foldl_cons, hpr]
          rw [ih _ c]
          simp only [catFold_apply p.categories st.2 p.uniqId c hcats]
          have hrp : recordProducts hm (rec :: recs) = p :: recordProducts hm recs := by
            simp [recordProducts, List.filter_cons, hrec, ← hp, hid]
          rw [hrp]
          by_cases hcp : c ∈ p.categories
          · simp [List.filter_cons, hcp]
          · simp [List.filter_cons, hcp]

/-- Counterexample for C4: loading two records that share the identifier `X1`
and the category `A` appends `X1` to category `A`'s list twice, so an
identifier can appear more than once in a category's list. -/
theorem spec_c4_counterexample :
    ¬ ((loadCsv (fun s => s.length) (some ["Uniq Id,Category", "X1,A", "X1,A"])
        (mkHashTable Product 8) emptyIndex).2.2 "A").Nodup := by decide

/-- Claim C4 as amended: for bulk loads whose stored records carry
pairwise-distinct identifiers, each category's list holds each identifier at
most once, and equals the identifiers of the stored records containing that
category, in load order (the order of first append); an identifier may appear
in several distinct category lists. -/
theorem spec_c4_category_index (h : String → Nat) (headerLine : String)
    (rest : List String) (table : HashTable Product)
    (hids : ((validProducts (buildHeader headerLine) rest).map (fun p => p.uniqId)).Nodup) :
    ∀ c, ((loadCsv h (some (headerLine :: rest)) table emptyIndex).2.2 c).Nodup ∧
      (loadCsv h (some (headerLine :: rest)) table emptyIndex).2.2 c =
        ((validProducts (buildHeader headerLine) rest).filter
          (fun p => c ∈ p.categories)).map (fun p => p.uniqId) := by
  intro c
  have hchar : (loadCsv h (some (headerLine :: rest)) table emptyIndex).2.2 c =
      ((validProducts (buildHeader headerLine) rest).filter
        (fun p => c ∈ p.categories)).map (fun p => p.uniqId) := by
    have := loadFold_index h (buildHeader headerLine) (splitRecords rest)
      (table, emptyIndex) c
    simpa [loadCsv, emptyIndex, validProducts] using this
  refine ⟨?_, hchar⟩
  rw [hchar]
  have hsub : List.Sublist
      (((validProducts (buildHeader headerLine) rest).filter
        (fun p => c ∈ p.categories)).map (fun p => p.uniqId))
      ((validProducts (buildHeader headerLine) rest).map (fun p => p.uniqId)) :=
    (List.filter_sublist _).map _
  exact hids.sublist hsub

/-- Witness for C4: a two-record load with distinct identifiers sharing
category `A`. -/
theorem spec_c4_category_index_witness :
    ((loadCsv (fun s => s.length) (some ["Uniq Id,Category", "X1,A|B", "X2,A"])
        (mkHashTable Product 8) emptyIndex).2.2 "A").Nodup ∧
      (loadCsv (fun s => s.length) (some ["Uniq Id,Category", "X1,A|B", "X2,A"])
          (mkHashTable Product 8) emptyIndex).2.2 "A" =
        ((validProducts (buildHeader "Uniq Id,Category") ["X1,A|B", "X2,A"]).filter
          (fun p => "A" ∈ p.categories)).map (fun p => p.uniqId) :=
  spec_c4_category_index (fun s => s.length) "Uniq Id,Category" ["X1,A|B", "X2,A"]
    (mkHashTable Product 8) (by decide) "A"

theorem nthBucket_replicate {T : Type} (n i : Nat) :
    nthBucket (List.replicate n ([] : List (Node T))) i = [] := by
  simp [nthBucket]

theorem nthBucket_set_self {T : Type} (bs : List (List (Node T))) (i : Nat)
    (b : List (Node T)) (hi : i < bs.length) : nthBucket (bs.set i b) i = b := by
  simp [nthBucket, List.getElem?_set_self, hi]

theorem nthBucket_set_ne {T : Type} (bs : List (List (Node T))) (i j : Nat)
    (b : List (Node T)) (hij : j ≠ i) : nthBucket (bs.set i b) j = nthBucket bs j := by
  simp [nthBucket, List.getElem?_set_ne (Ne.symm hij)]

theorem flatten_set {T : Type} (bs : List (List (Node T))) : ∀ (i : Nat) (b : List (Node T)),
    i < bs.length →
    (bs.set i b).flatten = (bs.take i).flatten ++ b ++ (bs.drop (i + 1)).flatten := by
  induction bs with
  | nil => intro i b hi; simp at hi
  | cons x xs ih =>
      intro i b hi
      cases i with
      | zero => simp
      | succ i => simp [List.set, ih i b (by simpa using hi), List.append_assoc]

theorem nthBucket_cons_succ {T : Type} (x : List (Node T)) (xs : List (List (Node T)))
    (i : Nat) : nthBucket (x :: xs) (i + 1) = nthBucket xs i := by
  simp [nthBucket, List.getD]

theorem flatten_decomp {T : Type} (bs : List (List (Node T))) : ∀ i : Nat, i < bs.length →
    bs.flatten = (bs.take i).flatten ++ nthBucket bs i ++ (bs.drop (i + 1)).flatten := by
  induction bs with
  | nil => intro i hi; simp at hi
  | cons x xs ih =>
      intro i hi
      cases i with
      | zero => simp [nthBucket]
      | succ i =>
          rw [show (x :: xs).take (i + 1) = x :: xs.take i from rfl,
            show (x :: xs).drop (i + 2) = xs.drop (i + 1) from rfl,
            nthBucket_cons_succ]
          simp only [List.flatten_cons]
          rw [ih i (by simpa using hi)]
          simp [List.append_assoc]

theorem mem_flatten_take {T : Type} (bs : List (List (Node T))) : ∀ (i : Nat) (nd : Node T),
    nd ∈ (bs.take i).flatten → ∃ j, j < i ∧ j < bs.length ∧ nd ∈ nthBucket bs j := by
  induction bs with
  | nil => intro i nd h; simp at h
  | cons x xs ih =>
      intro i nd h
      cases i with
      | zero => simp at h
      | succ i =>
          simp only [List.take, List.flatten_cons, List.mem_append] at h
          rcases h with h | h
          · exact ⟨0, Nat.succ_pos i, Nat.succ_pos xs.length, by simpa [nthBucket] using h⟩
          · obtain ⟨j, hj1, hj2, hj3⟩ := ih i nd h
            exact ⟨j + 1, Nat.succ_lt_succ hj1, Nat.succ_lt_succ hj2,
              by simpa [nthBucket, List.getD] using hj3⟩

theorem mem_flatten_drop {T : Type} (bs : List (List (Node T))) : ∀ (i : Nat) (nd : Node T),
    nd ∈ (bs.drop i).flatten → ∃ j, i ≤ j ∧ j < bs.length ∧ nd ∈ nthBucket bs j := by
  induction bs with
  | nil => intro i nd h; simp at h
  | cons x xs ih =>
      intro i nd h
      cases i with
      | zero =>
          simp only [List.drop, List.flatten_cons, List.mem_append] at h
          rcases h with h | h
          · exact ⟨0, Nat.le_refl 0, Nat.succ_pos xs.length, by simpa [nthBucket] using h⟩
          · obtain ⟨j, _, hj2, hj3⟩ := ih 0 nd (by simpa using h)
            exact ⟨j + 1, Nat.zero_le _, Nat.succ_lt_succ hj2,
              by simpa [nthBucket, List.getD] using hj3⟩
      | succ i =>
          obtain ⟨j, hj1, hj2, hj3⟩ := ih i nd (by simpa using h)
          exact ⟨j + 1, Nat.succ_le_succ hj1, Nat.succ_lt_succ hj2,
            by simpa [nthBucket, List.getD] using hj3⟩

theorem set_concat_perm {T : Type} (bs : List (List (Node T))) (i : Nat) (nd : Node T)
    (hi : i < bs.length) :
    List.Perm ((bs.set i (nthBucket bs i ++ [nd])).flatten) (bs.flatten ++ [nd]) := by
  rw [flatten_set bs i _ hi, flatten_decomp bs i hi]
  simp only [List.append_assoc]
  apply List.Perm.append_left
  apply List.Perm.append_left
  exact List.perm_append_comm

theorem findInBucket_append_none {T : Type} (k : String) (a b : List (Node T))
    (ha : findInBucket k a = none) : findInBucket k (a ++ b) = findInBucket k b := by
  induction a with
  | nil => simp
  | cons nd ns ih =>
      by_cases hk : nd.key = k
      · simp [findInBucket, hk] at ha
      · simp only [findInBucket, if_neg hk] at ha
        simp only [List.cons_append, findInBucket, if_neg hk]
        exact ih ha

theorem findInBucket_append_some {T : Type} (k : String) (v : T) (a b : List (Node T))
    (ha : findInBucket k a = some v) : findInBucket k (a ++ b) = some v := by
  induction a with
  | nil => simp [findInBucket] at ha
  | cons nd ns ih =>
      by_cases hk : nd.key = k
      · simp only [findInBucket, if_pos hk] at ha
        simp only [List.cons_append, findInBucket, if_pos hk]
        exact ha
      · simp only [findInBucket, if_neg hk] at ha
        simp only [List.cons_append, findInBucket, if_neg hk]
        exact ih ha

theorem findInBucket_eq_none_iff {T : Type} (k : String) (b : List (Node T)) :
    findInBucket k b = none ↔ ∀ nd ∈ b, nd.key ≠ k := by
  induction b with
  | nil => simp [findInBucket]
  | cons nd ns ih =>
      by_cases hk : nd.key = k
      · simp [findInBucket, hk]
      · simp [findInBucket, hk, ih]

theorem findInBucket_some_mem {T : Type} (k : String) (v : T) (b : List (Node T))
    (h : findInBucket k b = some v) : ∃ nd, nd ∈ b ∧ nd.key = k ∧ nd.value = v := by
  induction b with
  | nil => simp [findInBucket] at h
  | cons nd ns ih =>
      by_cases hk : nd.key = k
      · simp only [findInBucket, if_pos hk, Option.some_inj] at h
        exact ⟨nd, List.mem_cons_self nd ns, hk, h⟩
      · simp only [findInBucket, if_neg hk] at h
        obtain ⟨nd1, h1, h2, h3⟩ := ih h
        exact ⟨nd1, List.mem_cons_of_mem nd h1, h2, h3⟩

theorem findInBucket_key_mem {T : Type} (k : String) (nd : Node T) (hk : nd.key = k) :
    ∀ b : List (Node T), (b.map Node.key).Nodup → nd ∈ b →
    findInBucket k b = some nd.value := by
  intro b
  induction b with
  | nil => intro _ hm; simp at hm
  | cons x ns ih =>
      intro hnd hm
      rw [List.map_cons, List.nodup_cons] at hnd
      rcases List.mem_cons.mp hm with rfl | hm1
      · simp [findInBucket, hk]
      · have hxk : x.key ≠ k := by
          intro hxk
          apply hnd.1
          rw [hxk, ← hk]
          exact List.mem_map_of_mem Node.key hm1
        simp only [findInBucket, if_neg hxk]
        exact ih hnd.2 hm1

theorem findInBucket_perm {T : Type} (k : String) (a b : List (Node T))
    (hnd : (a.map Node.key).Nodup) (hp : List.Perm a b) :
    findInBucket k a = findInBucket k b := by
  cases hfa : findInBucket k a with
  | some v =>
      obtain ⟨nd, hm, hk, hv⟩ := findInBucket_some_mem k v a hfa
      have hb : findInBucket k b = some nd.value :=
        findInBucket_key_mem k nd hk b (hnd.perm (hp.map Node.key)) (hp.mem_iff.mp hm)
      rw [hb, hv]
  | none =>
      have := (findInBucket_eq_none_iff k a).mp hfa
      exact ((findInBucket_eq_none_iff k b).mpr
        (fun nd hm => this nd (hp.mem_iff.mpr hm))).symm

theorem updateBucket_none_iff {T : Type} (k : String) (v : T) (b : List (Node T)) :
    updateBucket k v b = none ↔ findInBucket k b = none := by
  induction b with
  | nil => simp [updateBucket, findInBucket]
  | cons nd ns ih =>
      by_cases hk : nd.key = k
      · simp [updateBucket, findInBucket, hk]
      · simp [updateBucket, findInBucket, hk, ih]

theorem updateBucket_some_spec {T : Type} (k : String) (v : T) (b : List (Node T)) :
    ∀ b1, updateBucket k v b = some b1 →
    findInBucket k b1 = some v ∧
    (∀ k1, k1 ≠ k → findInBucket k1 b1 = findInBucket k1 b) ∧
    b1.map Node.key = b.map Node.key := by
  induction b with
  | nil => intro b1 h; simp [updateBucket] at h
  | cons nd ns ih =>
      intro b1 h
      by_cases hk : nd.key = k
      · simp only [updateBucket, if_pos hk, Option.some_inj] at h
        subst h
        refine ⟨by simp [findInBucket, hk], ?_, by simp⟩
        intro k1 hk1
        have hne : nd.key ≠ k1 := fun hc => hk1 (hc.symm.trans hk)
        simp [findInBucket, hne]
      · simp only [updateBucket, if_neg hk] at h
        cases hub : updateBucket k v ns with
        | none => rw [hub] at h; simp at h
        | some ns1 =>
            rw [hub] at h
            have h' : nd :: ns1 = b1 := by simpa using h
            subst h'
            obtain ⟨h1, h2, h3⟩ := ih ns1 hub
            refine ⟨?_, ?_, by simp [h3]⟩
            · simp only [findInBucket, if_neg hk]
              exact h1
            · intro k1 hk1
              by_cases hndk : nd.key = k1
              · simp [findInBucket, hndk]
              · simp only [findInBucket, if_neg hndk]
                exact h2 k1 hk1

theorem rehash_fold_length {T : Type} (h : String → Nat) (m : Nat)
    (nodes : List (Node T)) : ∀ acc : List (List (Node T)),
    (nodes.foldl (rehashStep h m) acc).length = acc.length := by
  induction nodes with
  | nil => intro acc; rfl
  | cons nd nodes ih =>
      intro acc
      rw [List.foldl_cons, ih (rehashStep h m acc nd)]
      simp [rehashStep]

theorem rehash_fold_spec {T : Type} (h : String → Nat) (m : Nat) (hm : 0 < m)
    (nodes : List (Node T)) : ∀ acc : List (List (Node T)), acc.length = m →
    (∀ i, i < m → ∀ nd ∈ nthBucket acc i, h nd.key % m = i) →
    ((∀ i, i < m → ∀ nd ∈ nthBucket (nodes.foldl (rehashStep h m) acc) i,
        h nd.key % m = i) ∧
     List.Perm (nodes.foldl (rehashStep h m) acc).flatten (acc.flatten ++ nodes)) := by
  induction nodes with
  | nil => intro acc _ hplaced; exact ⟨hplaced, by simp⟩
  | cons nd nodes ih =>
      intro acc hlen hplaced
      have hidx : h nd.key % m < m := Nat.mod_lt _ hm
      have hidx' : h nd.key % m < acc.length := by rw [hlen]; exact hidx
      have hlen1 : (rehashStep h m acc nd).length = m := by simp [rehashStep, hlen]
      have hplaced1 : ∀ i, i < m → ∀ x ∈ nthBucket (rehashStep h m acc nd) i,
          h x.key % m = i := by
        intro i hi x hx
        by_cases hieq : i = h nd.key % m
        · subst hieq
          rw [rehashStep, nthBucket_set_self acc _ _ hidx'] at hx
          rcases List.mem_append.mp hx with hx1 | hx1
          · exact hplaced _ hi x hx1
          · have : x = nd := by simpa using hx1
            rw [this]
        · rw [rehashStep, nthBucket_set_ne acc _ _ _ hieq] at hx
          exact hplaced i hi x hx
      have hperm1 : List.Perm (rehashStep h m acc nd).flatten (acc.flatten ++ [nd]) :=
        set_concat_perm acc (h nd.key % m) nd hidx'
      obtain ⟨hp2, hperm2⟩ := ih (rehashStep h m acc nd) hlen1 hplaced1
      refine ⟨by simpa using hp2, ?_⟩
      rw [List.foldl_cons]
      refine hperm2.trans ?_
      have := hperm1.append_right nodes
      refine this.trans ?_
      rw [List.append_assoc]
      exact List.Perm.refl _

theorem rehash_spec {T : Type} (h : String → Nat) (bs : List (List (Node T))) (m : Nat)
    (hm : 0 < m) :
    (rehash h bs m).length = m ∧
    (∀ i, i < m → ∀ nd ∈ nthBucket (rehash h bs m) i, h nd.key % m = i) ∧
    List.Perm (rehash h bs m).flatten bs.flatten := by
  have hlen : (rehash h bs m).length = m := by
    rw [rehash, rehash_fold_length]
    simp
  have hinit : ∀ i, i < m → ∀ nd ∈ nthBucket (List.replicate m ([] : List (Node T))) i,
      h nd.key % m = i := by
    intro i hi nd hnd
    rw [nthBucket_replicate] at hnd
    simp at hnd
  obtain ⟨hp, hperm⟩ := rehash_fold_spec h m hm bs.flatten
    (List.replicate m []) (by simp) hinit
  exact ⟨hlen, hp, by simpa using hperm⟩

/-- WF is the hash-table representation invariant: a positive bucket count,
every node sitting in the bucket its key hashes to, pairwise-distinct keys,
and `size_` equal to the number of stored nodes. -/
structure WF {T : Type} (h : String → Nat) (ht : HashTable T) : Prop where
  pos : 0 < ht.buckets.length
  placed : ∀ i, i < ht.buckets.length → ∀ nd ∈ nthBucket ht.buckets i,
    h nd.key % ht.buckets.length = i
  nodupKeys : (ht.buckets.flatten.map Node.key).Nodup
  sizeEq : ht.size = ht.buckets.flatten.length

theorem find_eq_flatten {T : Type} (h : String → Nat) (ht : HashTable T)
    (hpos : 0 < ht.buckets.length)
    (hplaced : ∀ i, i < ht.buckets.length → ∀ nd ∈ nthBucket ht.buckets i,
      h nd.key % ht.buckets.length = i) (k : String) :
    ht.find h k = findInBucket k ht.buckets.flatten := by
  have hi : h k % ht.buckets.length < ht.buckets.length := Nat.mod_lt _ hpos
  have hdec := flatten_decomp ht.buckets (h k % ht.buckets.length) hi
  have hA : findInBucket k (ht.buckets.take (h k % ht.buckets.length)).flatten = none := by
    rw [findInBucket_eq_none_iff]
    intro nd hnd hk
    obtain ⟨hj1, hj2, hj3⟩ :
        ∃ j, j < h k % ht.buckets.length ∧ j < ht.buckets.length ∧ nd ∈ nthBucket ht.buckets j :=
      mem_flatten_take ht.buckets _ nd hnd
    obtain ⟨j, hj1, hj2, hj3⟩ := mem_flatten_take ht.buckets _ nd hnd
    have hpl := hplaced j hj2 nd hj3
    rw [hk] at hpl
    exact Nat.lt_irrefl j (hpl ▸ hj1)
  have hC : findInBucket k
      (ht.buckets.drop (h k % ht.buckets.length + 1)).flatten = none := by
    rw [findInBucket_eq_none_iff]
    intro nd hnd hk
    obtain ⟨j, hj1, hj2, hj3⟩ := mem_flatten_drop ht.buckets _ nd hnd
    have hpl := hplaced j hj2 nd hj3
    rw [hk] at hpl
    exact Nat.not_succ_le_self j (hpl ▸ hj1)
  have hfind : ht.find h k = findInBucket k (nthBucket ht.buckets (h k % ht.buckets.length)) :=
    rfl
  rw [hdec, List.append_assoc, findInBucket_append_none k _ _ hA]
  cases hB : findInBucket k (nthBucket ht.buckets (h k % ht.buckets.length)) with
  | some v => rw [findInBucket_append_some k v _ _ hB, hfind, hB]
  | none => rw [findInBucket_append_none k _ _ hB, hC, hfind, hB]

theorem insert_update_case {T : Type} (h : String → Nat) (ht : HashTable T) (k : String)
    (v : T) (b1 : List (Node T))
    (hub : updateBucket k v (nthBucket ht.buckets (indexFor h ht k)) = some b1) :
    ht.insert h k v =
      ({ buckets := ht.buckets.set (indexFor h ht k) b1, size := ht.size }, false) := by
  simp only [HashTable.insert, hub]

theorem insert_new_case {T : Type} (h : String → Nat) (ht : HashTable T) (k : String)
    (v : T)
    (hub : updateBucket k v (nthBucket ht.buckets (indexFor h ht k)) = none) :
    ht.insert h k v =
      (if loadFactorExceeds (ht.size + 1) ht.buckets.length then
        (HashTable.mk (rehash h (ht.buckets.set (indexFor h ht k)
            (nthBucket ht.buckets (indexFor h ht k) ++ [Node.mk k v]))
            (ht.buckets.length * 2 + 1)) (ht.size + 1), true)
       else (HashTable.mk (ht.buckets.set (indexFor h ht k)
            (nthBucket ht.buckets (indexFor h ht k) ++ [Node.mk k v]))
          (ht.size + 1), true)) := by
  simp only [HashTable.insert, hub, List.length_set]

theorem insert_append_facts {T : Type} (h : String → Nat) (ht : HashTable T) (k : String)
    (v : T) (hwf : WF h ht)
    (hnone : findInBucket k (nthBucket ht.buckets (indexFor h ht k)) = none) :
    WF h (HashTable.mk (ht.buckets.set (indexFor h ht k)
        (nthBucket ht.buckets (indexFor h ht k) ++ [Node.mk k v])) (ht.size + 1)) ∧
    (HashTable.mk (ht.buckets.set (indexFor h ht k)
        (nthBucket ht.buckets (indexFor h ht k) ++ [Node.mk k v]))
      (ht.size + 1)).find h k = some v ∧
    (∀ k1, k1 ≠ k →
      (HashTable.mk (ht.buckets.set (indexFor h ht k)
          (nthBucket ht.buckets (indexFor h ht k) ++ [Node.mk k v]))
        (ht.size + 1)).find h k1 = ht.find h k1) ∧
    List.Perm ((HashTable.mk (ht.buckets.set (indexFor h ht k)
        (nthBucket ht.buckets (indexFor h ht k) ++ [Node.mk k v]))
      (ht.size + 1)).buckets.flatten)
      (ht.buckets.flatten ++ [Node.mk k v]) := by
  obtain ⟨hpos, hplaced, hnodup, hsize⟩ := hwf
  have hi : indexFor h ht k < ht.buckets.length := Nat.mod_lt _ hpos
  have hperm := set_concat_perm ht.buckets (indexFor h ht k) (Node.mk k v) hi
  have hfl : findInBucket k ht.buckets.flatten = none := by
    rw [← find_eq_flatten h ht hpos hplaced k]
    exact hnone
  have hknot : ∀ nd ∈ ht.buckets.flatten, nd.key ≠ k :=
    (findInBucket_eq_none_iff k ht.buckets.flatten).mp hfl
  have hidx : ∀ k1, indexFor h
      (HashTable.mk (ht.buckets.set (indexFor h ht k)
          (nthBucket ht.buckets (indexFor h ht k) ++ [Node.mk k v]))
        (ht.size + 1)) k1 = indexFor h ht k1 := by
    intro k1
    simp [indexFor, List.length_set]
  refine ⟨⟨?_, ?_, ?_, ?_⟩, ?_, ?_, hperm⟩
  · simpa [List.length_set] using hpos
  · intro j hj nd hnd
    simp only [List.length_set] at hj ⊢
    by_cases hji : j = indexFor h ht k
    · subst hji
      rw [nthBucket_set_self _ _ _ hi] at hnd
      rcases List.mem_append.mp hnd with hnd1 | hnd1
      · exact hplaced _ hj nd hnd1
      · have : nd = Node.mk k v := by simpa using hnd1
        rw [this]
        rfl
    · rw [nthBucket_set_ne _ _ _ _ hji] at hnd
      exact hplaced j hj nd hnd
  · have hmap := hperm.map Node.key
    have htarget : ((ht.buckets.flatten ++ [Node.mk k v]).map Node.key).Nodup := by
      rw [List.map_append, List.nodup_append]
      refine ⟨hnodup, by simp, ?_⟩
      intro a ha hb
      have hak : a = k := by simpa using hb
      obtain ⟨nd, hnd, hndk⟩ := List.mem_map.mp ha
      exact hknot nd hnd (hndk.trans hak)
    exact htarget.perm hmap.symm
  · show ht.size + 1 = (ht.buckets.set (indexFor h ht k)
      (nthBucket ht.buckets (indexFor h ht k) ++ [Node.mk k v])).flatten.length
    rw [hperm.length_eq]
    simp [hsize]
  · show findInBucket k (nthBucket _ (indexFor h _ k)) = some v
    rw [hidx k, nthBucket_set_self _ _ _ hi, findInBucket_append_none k _ _ hnone]
    simp [findInBucket]
  · intro k1 hk1
    show findInBucket k1 (nthBucket _ (indexFor h _ k1)) =
      findInBucket k1 (nthBucket ht.buckets (indexFor h ht k1))
    rw [hidx k1]
    by_cases hjk : indexFor h ht k1 = indexFor h ht k
    · rw [hjk, nthBucket_set_self _ _ _ hi]
      cases hb1 : findInBucket k1 (nthBucket ht.buckets (indexFor h ht k)) with
      | some w => exact findInBucket_append_some k1 w _ _ hb1
      | none =>
          rw [findInBucket_append_none k1 _ _ hb1]
          simp only [findInBucket]
          rw [if_neg (show ¬ (Node.mk k v).key = k1 from fun hc => hk1 hc.symm)]
    · rw [nthBucket_set_ne _ _ _ _ hjk]

theorem insert_spec {T : Type} (h : String → Nat) (ht : HashTable T) (k : String) (v : T)
    (hwf : WF h ht) :
    WF h (ht.insert h k v).1 ∧
    (ht.insert h k v).1.find h k = some v ∧
    (∀ k1, k1 ≠ k → (ht.insert h k v).1.find h k1 = ht.find h k1) ∧
    ((ht.find h k).isSome = true → (ht.insert h k v).1.size = ht.size ∧
      (ht.insert h k v).1.bucketCount = ht.bucketCount ∧ (ht.insert h k v).2 = false) ∧
    (ht.find h k = none → (ht.insert h k v).1.size = ht.size + 1 ∧
      (ht.insert h k v).2 = true ∧
      ((loadFactorExceeds (ht.size + 1) ht.bucketCount = true →
        (ht.insert h k v).1.bucketCount = ht.bucketCount * 2 + 1) ∧
       (loadFactorExceeds (ht.size + 1) ht.bucketCount = false →
        (ht.insert h k v).1.bucketCount = ht.bucketCount))) := by
  obtain ⟨hpos, hplaced, hnodup, hsize⟩ := hwf
  have hi : indexFor h ht k < ht.buckets.length := Nat.mod_lt _ hpos
  have hfind0 : ht.find h k = findInBucket k (nthBucket ht.buckets (indexFor h ht k)) := rfl
  have hbc : ht.bucketCount = ht.buckets.length := rfl
  cases hub : updateBucket k v (nthBucket ht.buckets (indexFor h ht k)) with
  | some b1 =>
      have hins := insert_update_case h ht k v b1 hub
      obtain ⟨hf1, hf2, hkeys⟩ :=
        updateBucket_some_spec k v (nthBucket ht.buckets (indexFor h ht k)) b1 hub
      have hfindSome : findInBucket k (nthBucket ht.buckets (indexFor h ht k)) ≠ none := by
        intro hcontra
        rw [← updateBucket_none_iff k v] at hcontra
        rw [hub] at hcontra
        exact Option.noConfusion hcontra
      have hflkeys : ((ht.buckets.set (indexFor h ht k) b1).flatten.map Node.key) =
          (ht.buckets.flatten.map Node.key) := by
        rw [flatten_set _ _ _ hi, flatten_decomp ht.buckets (indexFor h ht k) hi]
        simp [hkeys]
      have hfllen : ((ht.buckets.set (indexFor h ht k) b1).flatten.length) =
          ht.buckets.flatten.length := by
        calc ((ht.buckets.set (indexFor h ht k) b1).flatten.length)
            = ((ht.buckets.set (indexFor h ht k) b1).flatten.map Node.key).length :=
              (List.length_map _ _).symm
          _ = (ht.buckets.flatten.map Node.key).length := by rw [hflkeys]
          _ = ht.buckets.flatten.length := List.length_map _ _
      have hidx : ∀ k1, indexFor h
          ({ buckets := ht.buckets.set (indexFor h ht k) b1, size := ht.size } : HashTable T)
          k1 = indexFor h ht k1 := by
        intro k1
        simp [indexFor, List.length_set]
      rw [hins]
      refine ⟨⟨?_, ?_, ?_, ?_⟩, ?_, ?_, ?_, ?_⟩
      · simpa using hpos
      · intro j hj nd hnd
        simp only [List.length_set] at hj ⊢
        by_cases hji : j = indexFor h ht k
        · subst hji
          rw [nthBucket_set_self _ _ _ hi] at hnd
          have hmem : nd.key ∈ (nthBucket ht.buckets (indexFor h ht k)).map Node.key := by
            rw [← hkeys]
            exact List.mem_map_of_mem Node.key hnd
          obtain ⟨nd0, hnd0, hk0⟩ := List.mem_map.mp hmem
          rw [← hk0]
          exact hplaced _ hj nd0 hnd0
        · rw [nthBucket_set_ne _ _ _ _ hji] at hnd
          exact hplaced j hj nd hnd
      · show ((ht.buckets.set (indexFor h ht k) b1).flatten.map Node.key).Nodup
        rw [hflkeys]
        exact hnodup
      · show ht.size = (ht.buckets.set (indexFor h ht k) b1).flatten.length
        rw [hfllen]
        exact hsize
      · show findInBucket k (nthBucket _ (indexFor h _ k)) = some v
        rw [hidx k, nthBucket_set_self _ _ _ hi]
        exact hf1
      · intro k1 hk1
        show findInBucket k1 (nthBucket _ (indexFor h _ k1)) = ht.find h k1
        rw [hidx k1]
        by_cases hjk : indexFor h ht k1 = indexFor h ht k
        · rw [hjk, nthBucket_set_self _ _ _ hi, hf2 k1 hk1]
          show findInBucket k1 (nthBucket ht.buckets (indexFor h ht k)) =
            findInBucket k1 (nthBucket ht.buckets (indexFor h ht k1))
          rw [hjk]
        · rw [nthBucket_set_ne _ _ _ _ hjk]
          rfl
      · intro _
        exact ⟨rfl, by simp [HashTable.bucketCount], rfl⟩
      · intro hnone
        rw [hfind0] at hnone
        exact absurd hnone hfindSome
  | none =>
      have hins := insert_new_case h ht k v hub
      have hbnone : findInBucket k (nthBucket ht.buckets (indexFor h ht k)) = none :=
        (updateBucket_none_iff k v _).mp hub
      have hfnone : ht.find h k = none := hfind0.trans hbnone
      obtain ⟨hwf1, hfind1, hfindne1, hperm1⟩ :=
        insert_append_facts h ht k v ⟨hpos, hplaced, hnodup, hsize⟩ hbnone
      cases htr : loadFactorExceeds (ht.size + 1) ht.buckets.length with
      | false =>
          have hins2 : ht.insert h k v =
              (HashTable.mk (ht.buckets.set (indexFor h ht k)
                (nthBucket ht.buckets (indexFor h ht k) ++ [Node.mk k v]))
                (ht.size + 1), true) := by
            rw [hins, htr]
            simp
          rw [hins2]
          refine ⟨hwf1, hfind1, hfindne1, ?_, ?_⟩
          · intro hs
            rw [hfnone] at hs
            simp at hs
          · intro _
            refine ⟨rfl, rfl, ?_, ?_⟩
            · intro hc
              rw [hbc, htr] at hc
              exact absurd hc (by simp)
            · intro _
              simp [HashTable.bucketCount]
      | true =>
          have hins2 : ht.insert h k v =
              (HashTable.mk (rehash h (ht.buckets.set (indexFor h ht k)
                (nthBucket ht.buckets (indexFor h ht k) ++ [Node.mk k v]))
                (ht.buckets.length * 2 + 1)) (ht.size + 1), true) := by
            rw [hins, htr]
            simp
          have hm : 0 < ht.buckets.length * 2 + 1 := Nat.succ_pos _
          obtain ⟨hrlen, hrplaced, hrperm⟩ := rehash_spec h
            (ht.buckets.set (indexFor h ht k)
              (nthBucket ht.buckets (indexFor h ht k) ++ [Node.mk k v]))
            (ht.buckets.length * 2 + 1) hm
          have hnodup2 : ((rehash h (ht.buckets.set (indexFor h ht k)
              (nthBucket ht.buckets (indexFor h ht k) ++ [Node.mk k v]))
              (ht.buckets.length * 2 + 1)).flatten.map Node.key).Nodup :=
            hwf1.nodupKeys.perm (hrperm.map Node.key).symm
          have hpos2 : 0 < (rehash h (ht.buckets.set (indexFor h ht k)
              (nthBucket ht.buckets (indexFor h ht k) ++ [Node.mk k v]))
              (ht.buckets.length * 2 + 1)).length := by
            rw [hrlen]
            exact hm
          have hplaced2 : ∀ i, i < (rehash h (ht.buckets.set (indexFor h ht k)
              (nthBucket ht.buckets (indexFor h ht k) ++ [Node.mk k v]))
              (ht.buckets.length * 2 + 1)).length →
              ∀ nd ∈ nthBucket (rehash h (ht.buckets.set (indexFor h ht k)
                (nthBucket ht.buckets (indexFor h ht k) ++ [Node.mk k v]))
                (ht.buckets.length * 2 + 1)) i,
              h nd.key % (rehash h (ht.buckets.set (indexFor h ht k)
                (nthBucket ht.buckets (indexFor h ht k) ++ [Node.mk k v]))
                (ht.buckets.length * 2 + 1)).length = i := by
            simp only [hrlen]
            exact hrplaced
          have hwf2 : WF h (HashTable.mk (rehash h (ht.buckets.set (indexFor h ht k)
              (nthBucket ht.buckets (indexFor h ht k) ++ [Node.mk k v]))
              (ht.buckets.length * 2 + 1)) (ht.size + 1)) := by
            refine ⟨hpos2, hplaced2, hnodup2, ?_⟩
            show ht.size + 1 = _
            rw [hrperm.length_eq]
            exact hwf1.sizeEq
          have hfind2 : ∀ k1, (HashTable.mk (rehash h (ht.buckets.set (indexFor h ht k)
              (nthBucket ht.buckets (indexFor h ht k) ++ [Node.mk k v]))
              (ht.buckets.length * 2 + 1)) (ht.size + 1)).find h k1 =
              (HashTable.mk (ht.buckets.set (indexFor h ht k)
                (nthBucket ht.buckets (indexFor h ht k) ++ [Node.mk k v]))
                (ht.size + 1)).find h k1 := by
            intro k1
            rw [find_eq_flatten h _ hpos2 hplaced2 k1,
              find_eq_flatten h _ hwf1.pos hwf1.placed k1]
            exact findInBucket_perm k1 _ _ hnodup2 hrperm
          rw [hins2]
          refine ⟨hwf2, ?_, ?_, ?_, ?_⟩
          · rw [hfind2 k]
            exact hfind1
          · intro k1 hk1
            rw [hfind2 k1]
            exact hfindne1 k1 hk1
          · intro hs
            rw [hfnone] at hs
            simp at hs
          · intro _
            refine ⟨rfl, rfl, ?_, ?_⟩
            · intro _
              show (rehash h _ _).length = ht.bucketCount * 2 + 1
              rw [hrlen, hbc]
            · intro hc
              rw [hbc, htr] at hc
              exact absurd hc (by simp)

theorem WF_mkHashTable {T : Type} (h : String → Nat) (n : Nat) (hn : 0 < n) :
    WF h (mkHashTable T n) := by
  refine ⟨by simpa [mkHashTable] using hn, ?_, ?_, ?_⟩
  · intro i hi nd hnd
    rw [show (mkHashTable T n).buckets = List.replicate n [] from rfl,
      nthBucket_replicate] at hnd
    simp at hnd
  · simp [mkHashTable]
  · simp [mkHashTable]

theorem find_mkHashTable {T : Type} (h : String → Nat) (n : Nat) (k : String) :
    (mkHashTable T n).find h k = none := by
  show findInBucket k (nthBucket (List.replicate n []) _) = none
  rw [nthBucket_replicate]
  rfl

theorem lastInserted_append {T : Type} (ops : List (String × T)) (p : String × T)
    (k : String) :
    lastInserted (ops ++ [p]) k = if p.1 = k then some p.2 else lastInserted ops k := by
  simp [lastInserted, List.foldl_append]

theorem distinctKeys_append {T : Type} (ops : List (String × T)) (p : String × T) :
    distinctKeys (ops ++ [p]) =
      if p.1 ∈ distinctKeys ops then distinctKeys ops else distinctKeys ops ++ [p.1] := by
  simp [distinctKeys, List.foldl_append]

theorem mem_distinctKeys_aux {T : Type} (ops : List (String × T)) : ∀ (acc : List String)
    (k : String),
    (k ∈ ops.foldl (fun acc p => if p.1 ∈ acc then acc else acc ++ [p.1]) acc ↔
      k ∈ acc ∨ k ∈ ops.map Prod.fst) := by
  induction ops with
  | nil => intro acc k; simp
  | cons p ops ih =>
      intro acc k
      rw [List.foldl_cons, ih]
      by_cases hp : p.1 ∈ acc
      · simp only [if_pos hp, List.map_cons, List.mem_cons]
        constructor
        · rintro (h1 | h1)
          exacts [Or.inl h1, Or.inr (Or.inr h1)]
        · rintro (h1 | h1 | h1)
          exacts [Or.inl h1, Or.inl (h1 ▸ hp), Or.inr h1]
      · simp only [if_neg hp, List.mem_append, List.mem_singleton, List.map_cons,
          List.mem_cons]
        tauto

theorem mem_distinctKeys {T : Type} (ops : List (String × T)) (k : String) :
    k ∈ distinctKeys ops ↔ k ∈ ops.map Prod.fst := by
  rw [distinctKeys, mem_distinctKeys_aux]
  simp

theorem lastInserted_aux {T : Type} (ops : List (String × T)) : ∀ (acc : Option T)
    (k : String),
    (ops.foldl (fun acc p => if p.1 = k then some p.2 else acc) acc = none ↔
      acc = none ∧ k ∉ ops.map Prod.fst) := by
  induction ops with
  | nil => intro acc k; simp
  | cons p ops ih =>
      intro acc k
      rw [List.foldl_cons, ih]
      by_cases hp : p.1 = k
      · simp only [if_pos hp, List.map_cons, List.mem_cons, hp]
        constructor
        · rintro ⟨h1, _⟩
          exact Option.noConfusion h1
        · rintro ⟨_, h1⟩
          exact absurd (Or.inl trivial) h1
      · simp only [if_neg hp, List.map_cons, List.mem_cons]
        constructor
        · rintro ⟨h1, h2⟩
          exact ⟨h1, fun hc => hc.elim (fun hc1 => hp hc1.symm) h2⟩
        · rintro ⟨h1, h2⟩
          exact ⟨h1, fun hc => h2 (Or.inr hc)⟩

theorem runInserts_spec {T : Type} (h : String → Nat) (n : Nat) (hn : 0 < n)
    (ops : List (String × T)) :
    WF h (runInserts h (mkHashTable T n) ops) ∧
    (∀ k, (runInserts h (mkHashTable T n) ops).find h k = lastInserted ops k) ∧
    (runInserts h (mkHashTable T n) ops).size = (distinctKeys ops).length := by
  induction ops using List.reverseRecOn with
  | nil =>
      refine ⟨WF_mkHashTable h n hn, ?_, rfl⟩
      intro k
      show (mkHashTable T n).find h k = lastInserted [] k
      rw [find_mkHashTable]
      rfl
  | append_singleton ops p ih =>
      obtain ⟨hwf, hfind, hsize⟩ := ih
      have hrun : runInserts h (mkHashTable T n) (ops ++ [p]) =
          ((runInserts h (mkHashTable T n) ops).insert h p.1 p.2).1 := by
        simp [runInserts, List.foldl_append]
      obtain ⟨hwf', hfk, hfne, hupd, hnew⟩ :=
        insert_spec h (runInserts h (mkHashTable T n) ops) p.1 p.2 hwf
      refine ⟨by rw [hrun]; exact hwf', ?_, ?_⟩
      · intro k
        rw [hrun, lastInserted_append]
        by_cases hk : p.1 = k
        · subst hk
          rw [if_pos rfl]
          exact hfk
        · rw [if_neg hk, hfne k (fun hc => hk hc.symm), hfind k]
      · rw [hrun, distinctKeys_append]
        by_cases hk : p.1 ∈ distinctKeys ops
        · rw [if_pos hk]
          have hmem : p.1 ∈ ops.map Prod.fst := (mem_distinctKeys ops p.1).mp hk
          have hne : lastInserted ops p.1 ≠ none := by
            intro hc
            rw [lastInserted, lastInserted_aux] at hc
            exact hc.2 hmem
          have hsome : ((runInserts h (mkHashTable T n) ops).find h p.1).isSome = true := by
            rw [hfind p.1]
            cases hli : lastInserted ops p.1 with
            | none => exact absurd hli hne
            | some w => rfl
          obtain ⟨hs1, _, _⟩ := hupd hsome
          rw [hs1, hsize]
        · rw [if_neg hk]
          have hmem : p.1 ∉ ops.map Prod.fst :=
            fun hc => hk ((mem_distinctKeys ops p.1).mpr hc)
          have hnone : (runInserts h (mkHashTable T n) ops).find h p.1 = none := by
            rw [hfind p.1, lastInserted]
            exact (lastInserted_aux ops none p.1).mpr ⟨rfl, hmem⟩
          obtain ⟨hs1, _, _⟩ := hnew hnone
          rw [hs1, hsize]
          simp

/-- Claim C1: starting from an empty hash table with any positive bucket
count, after any sequence of inserts, `size()` is the number of distinct
inserted keys (re-inserting an existing key overwrites in place without
changing size), and `find(key)` returns the most recently inserted value for
every inserted key. -/
theorem spec_c1_insert_find_size (T : Type) (h : String → Nat) (n : Nat) (hn : 0 < n)
    (ops : List (String × T)) :
    (runInserts h (mkHashTable T n) ops).size = (distinctKeys ops).length ∧
    ∀ k, k ∈ ops.map Prod.fst →
      (runInserts h (mkHashTable T n) ops).find h k = lastInserted ops k := by
  obtain ⟨_, hfind, hsize⟩ := runInserts_spec h n hn ops
  exact ⟨hsize, fun k _ => hfind k⟩

/-- Witness for C1 at a concrete three-insert sequence with one repeated key. -/
theorem spec_c1_insert_find_size_witness :
    (runInserts (fun s => s.length) (mkHashTable Nat 3)
        [("a", 1), ("b", 2), ("a", 5)]).size =
      (distinctKeys [("a", 1), ("b", 2), ("a", 5)]).length ∧
    ∀ k, k ∈ [("a", 1), ("b", 2), ("a", 5)].map Prod.fst →
      (runInserts (fun s => s.length) (mkHashTable Nat 3)
          [("a", 1), ("b", 2), ("a", 5)]).find (fun s => s.length) k =
        lastInserted [("a", 1), ("b", 2), ("a", 5)] k :=
  spec_c1_insert_find_size Nat (fun s => s.length) 3 (by decide)
    [("a", 1), ("b", 2), ("a", 5)]

/-- Claim C2: when an insert of a new key pushes the load factor above the
threshold, the completed insert grows the bucket count to exactly
`2 * old + 1` (a strict increase), every previously stored key is still
findable with its previous value, the entry count grows by exactly one, and
the invariant (including key uniqueness: no duplicated entry) is preserved. -/
theorem spec_c2_rehash_growth (T : Type) (h : String → Nat) (ht : HashTable T)
    (k : String) (v : T) (hwf : WF h ht) (hnew : ht.find h k = none)
    (htrig : loadFactorExceeds (ht.size + 1) ht.bucketCount = true) :
    (ht.insert h k v).1.bucketCount = 2 * ht.bucketCount + 1 ∧
    ht.bucketCount < (ht.insert h k v).1.bucketCount ∧
    (∀ k1 v1, ht.find h k1 = some v1 → (ht.insert h k v).1.find h k1 = some v1) ∧
    (ht.insert h k v).1.size = ht.size + 1 ∧
    WF h (ht.insert h k v).1 := by
  obtain ⟨hwf', hfk, hfne, _, hnewc⟩ := insert_spec h ht k v hwf
  have hbc := (hnewc hnew).2.2.1 htrig
  refine ⟨by rw [hbc]; ring, by rw [hbc]; omega, ?_, (hnewc hnew).1, hwf'⟩
  intro k1 v1 hv1
  have hk1 : k1 ≠ k := by
    intro hc
    rw [hc, hnew] at hv1
    exact Option.noConfusion hv1
  rw [hfne k1 hk1]
  exact hv1

/-- Witness for C2: a one-bucket empty table; the first insert pushes the
load factor to 1 > 0.9 and rehashes to three buckets. -/
theorem spec_c2_rehash_growth_witness :
    ((mkHashTable Nat 1).insert (fun s => s.length) "a" 0).1.bucketCount =
      2 * (mkHashTable Nat 1).bucketCount + 1 ∧
    (mkHashTable Nat 1).bucketCount <
      ((mkHashTable Nat 1).insert (fun s => s.length) "a" 0).1.bucketCount ∧
    (∀ k1 v1, (mkHashTable Nat 1).find (fun s => s.length) k1 = some v1 →
      ((mkHashTable Nat 1).insert (fun s => s.length) "a" 0).1.find
        (fun s => s.length) k1 = some v1) ∧
    ((mkHashTable Nat 1).insert (fun s => s.length) "a" 0).1.size =
      (mkHashTable Nat 1).size + 1 ∧
    WF (fun s => s.length) ((mkHashTable Nat 1).insert (fun s => s.length) "a" 0).1 :=
  spec_c2_rehash_growth Nat (fun s => s.length) (mkHashTable Nat 1) "a" 0
    (WF_mkHashTable (fun s => s.length) 1 (by decide)) (by decide) (by decide)

theorem insert_size_bucket {T : Type} (h : String → Nat) (ht : HashTable T) (k : String)
    (v : T) :
    ((ht.insert h k v).1.size = ht.size ∧
      (ht.insert h k v).1.bucketCount = ht.bucketCount) ∨
    ((ht.insert h k v).1.size = ht.size + 1 ∧
      ((loadFactorExceeds (ht.size + 1) ht.bucketCount = false ∧
        (ht.insert h k v).1.bucketCount = ht.bucketCount) ∨
       (loadFactorExceeds (ht.size + 1) ht.bucketCount = true ∧
        (ht.insert h k v).1.bucketCount = ht.bucketCount * 2 + 1))) := by
  have hbc : ht.bucketCount = ht.buckets.length := rfl
  cases hub : updateBucket k v (nthBucket ht.buckets (indexFor h ht k)) with
  | some b1 =>
      rw [insert_update_case h ht k v b1 hub]
      exact Or.inl ⟨rfl, by simp [HashTable.bucketCount]⟩
  | none =>
      rw [insert_new_case h ht k v hub]
      cases htr : loadFactorExceeds (ht.size + 1) ht.buckets.length with
      | false =>
          refine Or.inr ⟨rfl, Or.inl ⟨by rw [hbc]; exact htr, ?_⟩⟩
          show (ht.buckets.set (indexFor h ht k)
            (nthBucket ht.buckets (indexFor h ht k) ++ [Node.mk k v])).length =
            ht.bucketCount
          rw [List.length_set]
          exact hbc.symm
      | true =>
          refine Or.inr ⟨rfl, Or.inr ⟨by rw [hbc]; exact htr, ?_⟩⟩
          show (rehash h (ht.buckets.set (indexFor h ht k)
            (nthBucket ht.buckets (indexFor h ht k) ++ [Node.mk k v]))
            (ht.buckets.length * 2 + 1)).length = ht.bucketCount * 2 + 1
          obtain ⟨hrlen, _, _⟩ := rehash_spec h
            (ht.buckets.set (indexFor h ht k)
              (nthBucket ht.buckets (indexFor h ht k) ++ [Node.mk k v]))
            (ht.buckets.length * 2 + 1) (Nat.succ_pos _)
          rw [hrlen, hbc]

theorem erase_size_bucket {T : Type} (h : String → Nat) (ht : HashTable T) (k : String) :
    (ht.erase h k).1.bucketCount = ht.bucketCount ∧ (ht.erase h k).1.size ≤ ht.size := by
  cases hrb : removeFromBucket k (nthBucket ht.buckets (indexFor h ht k)) with
  | some b1 =>
      have he : ht.erase h k =
          (HashTable.mk (ht.buckets.set (indexFor h ht k) b1) (ht.size - 1), true) := by
        simp only [HashTable.erase, hrb]
      rw [he]
      exact ⟨by simp [HashTable.bucketCount], Nat.sub_le _ _⟩
  | none =>
      have he : ht.erase h k = (ht, false) := by
        simp only [HashTable.erase, hrb]
      rw [he]
      exact ⟨rfl, Nat.le_refl _⟩

theorem runOps_invariant {T : Type} (h : String → Nat) (ops : List (TableOp T)) :
    ∀ ht : HashTable T, 0 < ht.bucketCount → 10 * ht.size ≤ 9 * ht.bucketCount →
    0 < (runOps h ht ops).bucketCount ∧
      10 * (runOps h ht ops).size ≤ 9 * (runOps h ht ops).bucketCount := by
  induction ops with
  | nil => intro ht h1 h2; exact ⟨h1, h2⟩
  | cons op ops ih =>
      intro ht h1 h2
      have hstep : 0 < (applyOp h ht op).bucketCount ∧
          10 * (applyOp h ht op).size ≤ 9 * (applyOp h ht op).bucketCount := by
        cases op with
        | ins k v =>
            show 0 < (ht.insert h k v).1.bucketCount ∧
              10 * (ht.insert h k v).1.size ≤ 9 * (ht.insert h k v).1.bucketCount
            rcases insert_size_bucket h ht k v with ⟨hs, hb⟩ | ⟨hs, hcase⟩
            · rw [hs, hb]
              exact ⟨h1, h2⟩
            · rcases hcase with ⟨htr, hb⟩ | ⟨htr, hb⟩
              · have hnotr : ¬ (9 * ht.bucketCount < 10 * (ht.size + 1)) := by
                  have hne : ht.bucketCount ≠ 0 := Nat.pos_iff_ne_zero.mp h1
                  simp [loadFactorExceeds, hne] at htr
                  omega
                rw [hs, hb]
                exact ⟨h1, by omega⟩
              · rw [hs, hb]
                constructor
                · omega
                · omega
        | del k =>
            obtain ⟨hb, hsle⟩ := erase_size_bucket h ht k
            show 0 < (ht.erase h k).1.bucketCount ∧
              10 * (ht.erase h k).1.size ≤ 9 * (ht.erase h k).1.bucketCount
            rw [hb]
            exact ⟨h1, by omega⟩
        | qry k => exact ⟨h1, h2⟩
      exact ih (applyOp h ht op) hstep.1 hstep.2

theorem loadFactor_le_of_bound {T : Type} (ht : HashTable T) (hpos : 0 < ht.bucketCount)
    (hle : 10 * ht.size ≤ 9 * ht.bucketCount) : ht.loadFactor ≤ 0.9 := by
  have hne : ht.buckets.length ≠ 0 := Nat.pos_iff_ne_zero.mp hpos
  have hle' : 10 * ht.size ≤ 9 * ht.buckets.length := hle
  rw [HashTable.loadFactor, if_neg hne, show (0.9 : ℚ) = 9 / 10 by norm_num,
    div_le_div_iff₀ (Nat.cast_pos.mpr hpos) (by norm_num)]
  have hcast : ((10 * ht.size : Nat) : ℚ) ≤ ((9 * ht.buckets.length : Nat) : ℚ) :=
    Nat.cast_le.mpr hle'
  push_cast at hcast
  show (ht.size : ℚ) * 10 ≤ 9 * (ht.buckets.length : ℚ)
  linarith

/-- Claim C3: from a table constructed with any positive bucket count, after
any sequence of insert, erase and find calls, the load factor never exceeds
0.9 — any insert that would push it above the threshold grows the table
synchronously before returning, restoring the bound. -/
theorem spec_c3_load_factor_invariant (T : Type) (h : String → Nat) (n : Nat) (hn : 0 < n)
    (ops : List (TableOp T)) :
    (runOps h (mkHashTable T n) ops).loadFactor ≤ 0.9 := by
  obtain ⟨hpos, hle⟩ := runOps_invariant h ops (mkHashTable T n)
    (by simpa [mkHashTable, HashTable.bucketCount] using hn)
    (by simp [mkHashTable])
  exact loadFactor_le_of_bound _ hpos hle

/-- Witness for C3 at a concrete run: two inserts into a one-bucket table. -/
theorem spec_c3_load_factor_invariant_witness :
    (runOps (fun s => s.length) (mkHashTable Nat 1)
      [TableOp.ins "a" 1, TableOp.ins "b" 2, TableOp.del "a",
        TableOp.qry "b"]).loadFactor ≤ 0.9 :=
  spec_c3_load_factor_invariant Nat (fun s => s.length) 1 (by decide)
    [TableOp.ins "a" 1, TableOp.ins "b" 2, TableOp.del "a", TableOp.qry "b"]

/-- Counterexample for C6: the constructor accepts a caller-supplied bucket
count of zero, and immediately after that construction `bucketCount()` is 0,
so the bucket count is not strictly positive for every caller-supplied
initial bucket count. -/
theorem spec_c6_counterexample : ¬ (0 < (mkHashTable Nat 0).bucketCount) := by decide

/-- Claim C6 as amended: from a table constructed with a positive
caller-supplied bucket count, at every point in its lifetime — immediately
after construction and after any sequence of insert, find and erase calls —
the bucket count stays strictly positive, and every key maps to the bucket
given by its hash modulo the bucket count, a valid bucket index. -/
theorem spec_c6_bucket_count_positive (T : Type) (h : String → Nat) (n : Nat) (hn : 0 < n)
    (ops : List (TableOp T)) :
    0 < (runOps h (mkHashTable T n) ops).bucketCount ∧
    ∀ key, indexFor h (runOps h (mkHashTable T n) ops) key =
        h key % (runOps h (mkHashTable T n) ops).bucketCount ∧
      indexFor h (runOps h (mkHashTable T n) ops) key <
        (runOps h (mkHashTable T n) ops).bucketCount := by
  obtain ⟨hpos, _⟩ := runOps_invariant h ops (mkHashTable T n)
    (by simpa [mkHashTable, HashTable.bucketCount] using hn)
    (by simp [mkHashTable])
  exact ⟨hpos, fun key => ⟨rfl, Nat.mod_lt _ hpos⟩⟩

/-- Witness for C6 at a concrete run including an erase. -/
theorem spec_c6_bucket_count_positive_witness :
    0 < (runOps (fun s => s.length) (mkHashTable Nat 2)
      [TableOp.ins "a" 1, TableOp.del "a"]).bucketCount ∧
    ∀ key, indexFor (fun s => s.length)
        (runOps (fun s => s.length) (mkHashTable Nat 2)
          [TableOp.ins "a" 1, TableOp.del "a"]) key =
        (fun s => s.length) key % (runOps (fun s => s.length) (mkHashTable Nat 2)
          [TableOp.ins "a" 1, TableOp.del "a"]).bucketCount ∧
      indexFor (fun s => s.length)
        (runOps (fun s => s.length) (mkHashTable Nat 2)
          [TableOp.ins "a" 1, TableOp.del "a"]) key <
        (runOps (fun s => s.length) (mkHashTable Nat 2)
          [TableOp.ins "a" 1, TableOp.del "a"]).bucketCount :=
  spec_c6_bucket_count_positive Nat (fun s => s.length) 2 (by decide)
    [TableOp.ins "a" 1, TableOp.del "a"]

end inv
